import Mathlib

/-!
Verification of the fixed-capacity bit set (`src/advent/src/lib/bitset.rs`).

The Rust struct `BitSet { n: usize, bytes: Box<[u8]> }` is embedded as a Lean
structure whose `bytes` field is a list of naturals, each byte kept below 256
by the reachable-state invariant.  Bits are addressed MSB-first inside each
byte, exactly as in the source: global index `k` lives in byte `k / 8` at
offset `k % 8`, offset 0 being the most significant bit.
-/

/-- Rust `fn bit_at(byte: u8, idx: usize) -> bool`:
`(byte << idx).leading_ones() > 0`, i.e. the u8 shift (reduced mod 256) has
its most significant bit set. -/
def bit_at (byte : Nat) (idx : Nat) : Bool :=
  ((byte <<< idx) % 256).testBit 7

/-- Model of `u8::count_ones`: how many of the 8 bit positions of the byte are set. -/
def count_ones (b : Nat) : Nat :=
  ((List.range 8).filter (fun i => b.testBit i)).length

/-- Model of `u8::leading_zeros`: the number of leading (most-significant-first) zero
bits of the byte; 8 for the zero byte. -/
def leading_zeros (b : Nat) : Nat :=
  if b.testBit 7 then 0
  else if b.testBit 6 then 1
  else if b.testBit 5 then 2
  else if b.testBit 4 then 3
  else if b.testBit 3 then 4
  else if b.testBit 2 then 5
  else if b.testBit 1 then 6
  else if b.testBit 0 then 7
  else 8

/-- Embedding of `pub struct BitSet { n: usize, bytes: Box<[u8]> }`. -/
structure BitSet where
  n : Nat
  bytes : List Nat

/-- Rust `BitSet::new(n)`: `ceil(n/8)` zero bytes, via the source's match on
`(n / 8, n % 8)`. -/
def BitSet.new (n : Nat) : BitSet :=
  { n := n
    bytes :=
      match n / 8, n % 8 with
      | byte_len, 0 => List.replicate byte_len 0
      | byte_len, _ => List.replicate (byte_len + 1) 0 }

/-- Rust `BitSet::get`: `None` out of range, otherwise the bit read through
`bytes.get(byte_idx).map(...)`. -/
def BitSet.get (s : BitSet) (bit : Nat) : Option Bool :=
  if bit < s.n then
    (s.bytes[bit / 8]?).map (fun prev_byte => bit_at prev_byte (bit % 8))
  else
    none

/-- Rust `BitSet::set`: returns the previous bit and the updated state
(`*prev_byte |= 0x80 >> bit_idx`). -/
def BitSet.set (s : BitSet) (bit : Nat) : Option Bool × BitSet :=
  if bit < s.n then
    match s.bytes[bit / 8]? with
    | some prev_byte =>
        (some (bit_at prev_byte (bit % 8)),
          { s with bytes := s.bytes.set (bit / 8) (prev_byte ||| (0x80 >>> (bit % 8))) })
    | none => (none, s)
  else
    (none, s)

/-- Rust `BitSet::unset`: returns the previous bit and the updated state
(`*prev_byte &= 0xff - (0x80 >> bit_idx)`). -/
def BitSet.unset (s : BitSet) (bit : Nat) : Option Bool × BitSet :=
  if bit < s.n then
    match s.bytes[bit / 8]? with
    | some prev_byte =>
        (some (bit_at prev_byte (bit % 8)),
          { s with bytes := s.bytes.set (bit / 8) (prev_byte &&& (0xff - (0x80 >>> (bit % 8)))) })
    | none => (none, s)
  else
    (none, s)

/-- Rust `BitSet::len`: `bytes.iter().fold(0, |acc, b| acc + b.count_ones())`. -/
def BitSet.len (s : BitSet) : Nat :=
  s.bytes.foldl (fun acc b => acc + count_ones b) 0

/-- The scanning loop of `BitSet::min`, carrying the current byte index. -/
def minAux : Nat → List Nat → Option Nat
  | _, [] => none
  | i, b :: rest =>
      if b > 0 then some (8 * i + leading_zeros b) else minAux (i + 1) rest

/-- Rust `BitSet::min`: scan bytes in order; in the first non-zero byte return
`8*byte_idx + byte.leading_zeros()`. -/
def BitSet.min (s : BitSet) : Option Nat :=
  minAux 0 s.bytes

/-- The 8 bits of a byte, most significant first: the `format!("{:08b}", byte)`
digits of the `Display` impl, as booleans. -/
def byteBits (b : Nat) : List Bool :=
  (List.range 8).map (fun i => b.testBit (7 - i))

/-- The full binary string `s` built by `Display for BitSet` (before the
`&s[0..self.n]` slice), as a boolean list. -/
def BitSet.render (s : BitSet) : List Bool :=
  (s.bytes.map byteBits).flatten

/-- The bit stored at global position `k` of a byte list (byte `k / 8`,
MSB-first offset `k % 8`); `false` past the end. -/
def bitIn (L : List Nat) (k : Nat) : Bool :=
  (L.getD (k / 8) 0).testBit (7 - k % 8)

/-- States reachable from `BitSet::new` by the mutating operations
(`get`, `len` and `min` take `&self` and cannot change the state). -/
inductive Reachable : BitSet → Prop
  | base (n : Nat) : Reachable (BitSet.new n)
  | set (s : BitSet) (i : Nat) : Reachable s → Reachable (s.set i).2
  | unset (s : BitSet) (i : Nat) : Reachable s → Reachable (s.unset i).2

/-- The representation invariant of reachable states: exactly `ceil(n/8)`
bytes, each a genuine `u8`, and every bit at a global position `≥ n` clear. -/
def BitSetInv (s : BitSet) : Prop :=
  s.bytes.length = (s.n + 7) / 8 ∧
    (∀ b ∈ s.bytes, b < 256) ∧
    (∀ k, s.n ≤ k → bitIn s.bytes k = false)

theorem bit_at_eq_testBit (b : Nat) {i : Nat} (h : i < 8) :
    bit_at b i = b.testBit (7 - i) := by
  have h256 : (256 : Nat) = 2 ^ 8 := by norm_num
  rw [bit_at, h256, Nat.testBit_mod_two_pow, Nat.testBit_shiftLeft]
  simp [Nat.le_of_lt_succ h, show i ≤ 7 by omega]

theorem mask_eq_two_pow {m : Nat} (h : m < 8) : 0x80 >>> m = 2 ^ (7 - m) := by
  interval_cases m <;> rfl

theorem new_bytes (n : Nat) : (BitSet.new n).bytes = List.replicate ((n + 7) / 8) 0 := by
  show (match n / 8, n % 8 with
    | byte_len, 0 => List.replicate byte_len 0
    | byte_len, _ => List.replicate (byte_len + 1) 0) = _
  rcases h : n % 8 with _ | k
  · rw [show (n + 7) / 8 = n / 8 by omega]
  · rw [show (n + 7) / 8 = n / 8 + 1 by omega]
    rfl

theorem new_n (n : Nat) : (BitSet.new n).n = n := rfl

/-- Claim C3: for `index >= capacity`, `get`, `set` and `unset` all return `None`
and `set`/`unset` leave the state (capacity and storage bytes) untouched. -/
theorem c3_out_of_range_is_noop (s : BitSet) (i : Nat) (h : s.n ≤ i) :
    s.get i = none ∧ s.set i = (none, s) ∧ s.unset i = (none, s) := by
  refine ⟨?_, ?_, ?_⟩ <;>
    simp [BitSet.get, BitSet.set, BitSet.unset, Nat.not_lt.mpr h]

theorem c3_out_of_range_is_noop_witness :
    (BitSet.new 4).n ≤ 7 ∧
      (BitSet.new 4).get 7 = none ∧
      (BitSet.new 4).set 7 = (none, BitSet.new 4) ∧
      (BitSet.new 4).unset 7 = (none, BitSet.new 4) :=
  ⟨by decide, c3_out_of_range_is_noop (BitSet.new 4) 7 (by decide)⟩

/-- Claim C4: `set(index)` and `unset(index)` return exactly what `get(index)`
returned in the state immediately before the call. -/
theorem c4_set_unset_return_previous_get (s : BitSet) (i : Nat) :
    (s.set i).1 = s.get i ∧ (s.unset i).1 = s.get i := by
  unfold BitSet.set BitSet.unset BitSet.get
  by_cases h : i < s.n
  · cases hb : s.bytes[i / 8]? <;> simp [h, hb]
  · simp [h]

/-- Claim C7: `new n` allocates exactly `ceil(n/8)` zero bytes (so `new 8`, `new 9`,
`new 16`, `new 17` give 1, 2, 2, 3 bytes), and no operation changes the
storage length. -/
theorem c7_storage_length (n : Nat) (s : BitSet) (i : Nat) :
    (BitSet.new n).bytes.length = (n + 7) / 8 ∧
      (∀ b ∈ (BitSet.new n).bytes, b = 0) ∧
      (s.set i).2.bytes.length = s.bytes.length ∧
      (s.unset i).2.bytes.length = s.bytes.length ∧
      (BitSet.new 8).bytes.length = 1 ∧
      (BitSet.new 9).bytes.length = 2 ∧
      (BitSet.new 16).bytes.length = 2 ∧
      (BitSet.new 17).bytes.length = 3 := by
  refine ⟨by rw [new_bytes]; exact List.length_replicate _ _, ?_, ?_, ?_, rfl, rfl, rfl, rfl⟩
  · rw [new_bytes]
    exact fun b hb => List.eq_of_mem_replicate hb
  · unfold BitSet.set
    by_cases h : i < s.n
    · cases hb : s.bytes[i / 8]? <;> simp [h, hb]
    · simp [h]
  · unfold BitSet.unset
    by_cases h : i < s.n
    · cases hb : s.bytes[i / 8]? <;> simp [h, hb]
    · simp [h]

/-- Claim C8: the state after calling `set i` twice equals the state after calling
it once, and likewise for `unset i`. -/
theorem c8_set_unset_idempotent (s : BitSet) (i : Nat) :
    ((s.set i).2.set i).2 = (s.set i).2 ∧ ((s.unset i).2.unset i).2 = (s.unset i).2 := by
  constructor
  · unfold BitSet.set
    by_cases h : i < s.n
    · cases hb : s.bytes[i / 8]? with
      | none => simp [h, hb]
      | some b =>
          have hlen : i / 8 < s.bytes.length := (List.getElem?_eq_some_iff.mp hb).1
          simp only [h, if_true, hb]
          rw [List.getElem?_set_self (by simpa using hlen)]
          simp [List.set_set, Nat.or_assoc]
    · simp [h]
  · unfold BitSet.unset
    by_cases h : i < s.n
    · cases hb : s.bytes[i / 8]? with
      | none => simp [h, hb]
      | some b =>
          have hlen : i / 8 < s.bytes.length := (List.getElem?_eq_some_iff.mp hb).1
          simp only [h, if_true, hb]
          rw [List.getElem?_set_self (by simpa using hlen)]
          simp [List.set_set, Nat.and_assoc]
    · simp [h]

theorem getD_replicate_zero (m j : Nat) : (List.replicate m (0 : Nat)).getD j 0 = 0 := by
  induction m generalizing j with
  | zero => rfl
  | succ m ih =>
      cases j with
      | zero => rfl
      | succ j => simp [List.replicate_succ, ih j]

theorem get_eq_bitIn (s : BitSet) {i : Nat} (hi : i < s.n) (hlen : i / 8 < s.bytes.length) :
    s.get i = some (bitIn s.bytes i) := by
  rw [BitSet.get, if_pos hi, List.getElem?_eq_getElem hlen]
  have hm : i % 8 < 8 := Nat.mod_lt i (by norm_num)
  simp [bitIn, bit_at_eq_testBit _ hm, List.getElem?_eq_getElem hlen]

theorem set_n (s : BitSet) (i : Nat) : (s.set i).2.n = s.n := by
  unfold BitSet.set
  by_cases h : i < s.n
  · cases hb : s.bytes[i / 8]? <;> simp [h, hb]
  · simp [h]

theorem unset_n (s : BitSet) (i : Nat) : (s.unset i).2.n = s.n := by
  unfold BitSet.unset
  by_cases h : i < s.n
  · cases hb : s.bytes[i / 8]? <;> simp [h, hb]
  · simp [h]

theorem set_state (s : BitSet) {i : Nat} (hi : i < s.n) (hlen : i / 8 < s.bytes.length) :
    (s.set i).2 =
      ⟨s.n, s.bytes.set (i / 8) (s.bytes.getD (i / 8) 0 ||| (0x80 >>> (i % 8)))⟩ := by
  unfold BitSet.set
  rw [if_pos hi, List.getElem?_eq_getElem hlen]
  simp [List.getElem?_eq_getElem hlen]

theorem unset_state (s : BitSet) {i : Nat} (hi : i < s.n) (hlen : i / 8 < s.bytes.length) :
    (s.unset i).2 =
      ⟨s.n, s.bytes.set (i / 8) (s.bytes.getD (i / 8) 0 &&& (0xff - (0x80 >>> (i % 8))))⟩ := by
  unfold BitSet.unset
  rw [if_pos hi, List.getElem?_eq_getElem hlen]
  simp [List.getElem?_eq_getElem hlen]

theorem set_state_frozen (s : BitSet) (i : Nat) (h : ¬(i < s.n ∧ i / 8 < s.bytes.length)) :
    (s.set i).2 = s := by
  unfold BitSet.set
  by_cases hi : i < s.n
  · have hlen : s.bytes.length ≤ i / 8 := by
      by_contra hc
      exact h ⟨hi, by omega⟩
    rw [if_pos hi, List.getElem?_eq_none hlen]
  · simp [hi]

theorem unset_state_frozen (s : BitSet) (i : Nat) (h : ¬(i < s.n ∧ i / 8 < s.bytes.length)) :
    (s.unset i).2 = s := by
  unfold BitSet.unset
  by_cases hi : i < s.n
  · have hlen : s.bytes.length ≤ i / 8 := by
      by_contra hc
      exact h ⟨hi, by omega⟩
    rw [if_pos hi, List.getElem?_eq_none hlen]
  · simp [hi]

theorem bitIn_set_list (L : List Nat) (a v k : Nat) (ha : a < L.length) :
    bitIn (L.set a v) k = if k / 8 = a then v.testBit (7 - k % 8) else bitIn L k := by
  unfold bitIn
  by_cases h : k / 8 = a
  · subst h
    rw [List.getD_eq_getElem?_getD, List.getElem?_set_self ha]
    simp
  · rw [List.getD_eq_getElem?_getD, List.getElem?_set_ne (Ne.symm h), if_neg h,
      List.getD_eq_getElem?_getD]

theorem set_byte_testBit (b : Nat) {m j : Nat} (hm : m < 8) (hj : j < 8) :
    (b ||| (0x80 >>> m)).testBit (7 - j) = (b.testBit (7 - j) || decide (j = m)) := by
  rw [mask_eq_two_pow hm, Nat.testBit_or]
  by_cases h : j = m
  · subst h
    simp [Nat.testBit_two_pow_self]
  · simp [h, Nat.testBit_two_pow_of_ne (show 7 - m ≠ 7 - j by omega)]

theorem unset_byte_testBit (b : Nat) {m j : Nat} (hm : m < 8) (hj : j < 8) :
    (b &&& (0xff - (0x80 >>> m))).testBit (7 - j) = (b.testBit (7 - j) && !decide (j = m)) := by
  have hmask : (0xff - (0x80 >>> m)).testBit (7 - j) = !decide (j = m) := by
    interval_cases m <;> interval_cases j <;> decide
  rw [Nat.testBit_and, hmask]

theorem set_bitIn (s : BitSet) {i : Nat} (hi : i < s.n) (hlen : i / 8 < s.bytes.length)
    (k : Nat) :
    bitIn (s.set i).2.bytes k = (bitIn s.bytes k || decide (k = i)) := by
  rw [set_state s hi hlen]
  show bitIn (s.bytes.set (i / 8) _) k = _
  rw [bitIn_set_list _ _ _ _ hlen]
  by_cases h : k / 8 = i / 8
  · rw [if_pos h]
    rw [set_byte_testBit _ (Nat.mod_lt i (by norm_num)) (Nat.mod_lt k (by norm_num))]
    have hk : decide (k % 8 = i % 8) = decide (k = i) := by
      by_cases hki : k = i
      · subst hki
        simp
      · have hne : ¬(k % 8 = i % 8) := by omega
        simp [hki, hne]
    simp only [bitIn, h, hk]
  · rw [if_neg h]
    have hne : k ≠ i := fun hx => h (by rw [hx])
    simp [hne]

theorem unset_bitIn (s : BitSet) {i : Nat} (hi : i < s.n) (hlen : i / 8 < s.bytes.length)
    (k : Nat) :
    bitIn (s.unset i).2.bytes k = (bitIn s.bytes k && !decide (k = i)) := by
  rw [unset_state s hi hlen]
  show bitIn (s.bytes.set (i / 8) _) k = _
  rw [bitIn_set_list _ _ _ _ hlen]
  by_cases h : k / 8 = i / 8
  · rw [if_pos h]
    rw [unset_byte_testBit _ (Nat.mod_lt i (by norm_num)) (Nat.mod_lt k (by norm_num))]
    have hk : decide (k % 8 = i % 8) = decide (k = i) := by
      by_cases hki : k = i
      · subst hki
        simp
      · have hne : ¬(k % 8 = i % 8) := by omega
        simp [hki, hne]
    simp only [bitIn, h, hk]
  · rw [if_neg h]
    have hne : k ≠ i := fun hx => h (by rw [hx])
    simp [hne]

theorem reachable_inv {s : BitSet} (h : Reachable s) : BitSetInv s := by
  induction h with
  | base n =>
      refine ⟨by rw [new_bytes]; exact List.length_replicate _ _, ?_, ?_⟩
      · rw [new_bytes]
        intro b hb
        rw [List.eq_of_mem_replicate hb]
        norm_num
      · intro k _
        rw [new_bytes]
        unfold bitIn
        rw [getD_replicate_zero]
        exact Nat.zero_testBit _
  | set s i _ ih =>
      obtain ⟨hl, hb, hp⟩ := ih
      by_cases hc : i < s.n ∧ i / 8 < s.bytes.length
      · obtain ⟨hi, hlen⟩ := hc
        refine ⟨?_, ?_, ?_⟩
        · rw [set_state s hi hlen]
          simp [List.length_set, hl]
        · rw [set_state s hi hlen]
          intro b hmem
          rcases List.mem_or_eq_of_mem_set hmem with hmem | rfl
          · exact hb b hmem
          · have h256 : (256 : Nat) = 2 ^ 8 := by norm_num
            have hm8 : i % 8 < 8 := Nat.mod_lt i (by norm_num)
            have hmem2 : s.bytes.getD (i / 8) 0 < 256 := by
              rw [List.getD_eq_getElem _ _ hlen]
              exact hb _ (List.getElem_mem hlen)
            have hpow : 2 ^ (7 - i % 8) < 2 ^ 8 :=
              lt_of_le_of_lt
                (Nat.pow_le_pow_right (by norm_num) (show 7 - i % 8 ≤ 7 by omega))
                (by norm_num)
            rw [mask_eq_two_pow hm8, h256]
            exact Nat.or_lt_two_pow (by rw [← h256]; exact hmem2) hpow
        · intro k hk
          rw [set_n] at hk
          rw [set_bitIn s hi hlen]
          have hne : k ≠ i := by omega
          simp [hp k hk, hne]
      · rw [set_state_frozen s i hc]
        exact ⟨hl, hb, hp⟩
  | unset s i _ ih =>
      obtain ⟨hl, hb, hp⟩ := ih
      by_cases hc : i < s.n ∧ i / 8 < s.bytes.length
      · obtain ⟨hi, hlen⟩ := hc
        refine ⟨?_, ?_, ?_⟩
        · rw [unset_state s hi hlen]
          simp [List.length_set, hl]
        · rw [unset_state s hi hlen]
          intro b hmem
          rcases List.mem_or_eq_of_mem_set hmem with hmem | rfl
          · exact hb b hmem
          · calc s.bytes.getD (i / 8) 0 &&& (0xff - (0x80 >>> (i % 8)))
                ≤ s.bytes.getD (i / 8) 0 := Nat.and_le_left
              _ < 256 := hb _ (by rw [List.getD_eq_getElem _ _ hlen]; exact List.getElem_mem hlen)
        · intro k hk
          rw [unset_n] at hk
          rw [unset_bitIn s hi hlen]
          simp [hp k hk]
      · rw [unset_state_frozen s i hc]
        exact ⟨hl, hb, hp⟩

/-- Claim C5: for a reachable state and `index < capacity`, after `set index` the
bit reads back `Some true`, and after a subsequent `unset index` it reads back
`Some false`. -/
theorem c5_set_then_unset (s : BitSet) (h : Reachable s) (i : Nat) (hi : i < s.n) :
    (s.set i).2.get i = some true ∧ ((s.set i).2.unset i).2.get i = some false := by
  obtain ⟨hl, hb, hp⟩ := reachable_inv h
  have hlen : i / 8 < s.bytes.length := by
    rw [hl]
    omega
  have hi' : i < (s.set i).2.n := by
    rw [set_n]
    exact hi
  have hlen' : i / 8 < (s.set i).2.bytes.length := by
    rw [set_state s hi hlen]
    simpa [List.length_set] using hlen
  constructor
  · rw [get_eq_bitIn _ hi' hlen', set_bitIn s hi hlen]
    simp
  · have hi'' : i < ((s.set i).2.unset i).2.n := by
      rw [unset_n, set_n]
      exact hi
    have hlen'' : i / 8 < ((s.set i).2.unset i).2.bytes.length := by
      rw [unset_state _ hi' hlen']
      simpa [List.length_set] using hlen'
    rw [get_eq_bitIn _ hi'' hlen'', unset_bitIn _ hi' hlen']
    simp

theorem c5_set_then_unset_witness :
    2 < (BitSet.new 3).n ∧
      ((BitSet.new 3).set 2).2.get 2 = some true ∧
      (((BitSet.new 3).set 2).2.unset 2).2.get 2 = some false :=
  ⟨by decide, c5_set_then_unset (BitSet.new 3) (Reachable.base 3) 2 (by decide)⟩

/-- Claim C6: in every reachable state, every storage bit whose global position
`8*byte_idx + offset` (MSB-first) is `≥ capacity` is 0. -/
theorem c6_padding_bits_zero (s : BitSet) (h : Reachable s) (j off : Nat) (hoff : off < 8)
    (hpad : s.n ≤ 8 * j + off) :
    (s.bytes.getD j 0).testBit (7 - off) = false := by
  obtain ⟨_, _, hp⟩ := reachable_inv h
  have hbit := hp (8 * j + off) hpad
  unfold bitIn at hbit
  rwa [show (8 * j + off) / 8 = j by omega, show (8 * j + off) % 8 = off by omega] at hbit

theorem c6_padding_bits_zero_witness :
    5 < 8 ∧ (BitSet.new 5).n ≤ 8 * 0 + 5 ∧
      (((BitSet.new 5).bytes.getD 0 0).testBit (7 - 5) = false) :=
  ⟨by decide, by decide, c6_padding_bits_zero (BitSet.new 5) (Reachable.base 5) 0 5
    (by decide) (by decide)⟩

/-- Claim C9: for a reachable state and `index < capacity`, `set index` makes
`get index` read `Some true` while leaving `get j` unchanged for every
`j ≠ index`; `unset index` symmetrically clears only the bit at `index`. -/
theorem c9_single_bit_frame (s : BitSet) (h : Reachable s) (i : Nat) (hi : i < s.n) :
    (s.set i).2.get i = some true ∧
      (∀ j, j ≠ i → (s.set i).2.get j = s.get j) ∧
      (s.unset i).2.get i = some false ∧
      (∀ j, j ≠ i → (s.unset i).2.get j = s.get j) := by
  obtain ⟨hl, hb, hp⟩ := reachable_inv h
  have hlen : i / 8 < s.bytes.length := by
    rw [hl]
    omega
  have hsn := set_n s i
  have hun := unset_n s i
  have hslen : (s.set i).2.bytes.length = s.bytes.length := by
    rw [set_state s hi hlen]
    simp [List.length_set]
  have hulen : (s.unset i).2.bytes.length = s.bytes.length := by
    rw [unset_state s hi hlen]
    simp [List.length_set]
  refine ⟨?_, ?_, ?_, ?_⟩
  · rw [get_eq_bitIn _ (by rw [hsn]; exact hi) (by rw [hslen]; exact hlen), set_bitIn s hi hlen]
    simp
  · intro j hj
    by_cases hjn : j < s.n
    · have hjlen : j / 8 < s.bytes.length := by
        rw [hl]
        omega
      rw [get_eq_bitIn _ (by rw [hsn]; exact hjn) (by rw [hslen]; exact hjlen),
        get_eq_bitIn _ hjn hjlen, set_bitIn s hi hlen]
      simp [hj]
    · simp [BitSet.get, hsn, hjn]
  · rw [get_eq_bitIn _ (by rw [hun]; exact hi) (by rw [hulen]; exact hlen), unset_bitIn s hi hlen]
    simp
  · intro j hj
    by_cases hjn : j < s.n
    · have hjlen : j / 8 < s.bytes.length := by
        rw [hl]
        omega
      rw [get_eq_bitIn _ (by rw [hun]; exact hjn) (by rw [hulen]; exact hjlen),
        get_eq_bitIn _ hjn hjlen, unset_bitIn s hi hlen]
      simp [hj]
    · simp [BitSet.get, hun, hjn]

theorem c9_single_bit_frame_witness :
    1 < (BitSet.new 3).n ∧
      ((BitSet.new 3).set 1).2.get 1 = some true ∧
      (∀ j, j ≠ 1 → ((BitSet.new 3).set 1).2.get j = (BitSet.new 3).get j) ∧
      ((BitSet.new 3).unset 1).2.get 1 = some false ∧
      (∀ j, j ≠ 1 → ((BitSet.new 3).unset 1).2.get j = (BitSet.new 3).get j) :=
  ⟨by decide, c9_single_bit_frame (BitSet.new 3) (Reachable.base 3) 1 (by decide)⟩

theorem foldl_count_ones_init (L : List Nat) (a : Nat) :
    L.foldl (fun acc b => acc + count_ones b) a =
      a + L.foldl (fun acc b => acc + count_ones b) 0 := by
  induction L generalizing a with
  | nil => simp
  | cons b t ih =>
      simp only [List.foldl_cons]
      rw [ih (a + count_ones b), ih (0 + count_ones b)]
      omega

theorem countP_range8_msb_lsb (b : Nat) :
    (List.range 8).countP (fun k => b.testBit (7 - k)) =
      (List.range 8).countP (fun i => b.testBit i) := by
  have h : List.range 8 = [0, 1, 2, 3, 4, 5, 6, 7] := rfl
  rw [h]
  simp only [List.countP_cons, List.countP_nil]
  norm_num
  split_ifs <;> omega

theorem bitIn_cons_add (b : Nat) (t : List Nat) (k : Nat) :
    bitIn (b :: t) (8 + k) = bitIn t k := by
  unfold bitIn
  rw [show (8 + k) / 8 = k / 8 + 1 by omega, show (8 + k) % 8 = k % 8 by omega]
  simp [List.getD_eq_getElem?_getD]

theorem countP_range8_head (b : Nat) (t : List Nat) :
    (List.range 8).countP (fun k => bitIn (b :: t) k) = count_ones b := by
  have hcongr : (List.range 8).countP (fun k => bitIn (b :: t) k) =
      (List.range 8).countP (fun k => b.testBit (7 - k)) := by
    apply List.countP_congr
    intro k hk
    have hk8 : k < 8 := List.mem_range.mp hk
    unfold bitIn
    rw [Nat.div_eq_of_lt hk8, Nat.mod_eq_of_lt hk8]
    simp [List.getD_eq_getElem?_getD]
  rw [hcongr, countP_range8_msb_lsb, count_ones, List.countP_eq_length_filter]

theorem sum_count_ones (L : List Nat) :
    L.foldl (fun acc b => acc + count_ones b) 0 =
      (List.range (8 * L.length)).countP (fun k => bitIn L k) := by
  induction L with
  | nil => simp
  | cons b t ih =>
      rw [List.foldl_cons, foldl_count_ones_init, Nat.zero_add, ih]
      rw [List.length_cons, show 8 * (t.length + 1) = 8 + 8 * t.length by ring,
        List.range_add, List.countP_append, List.countP_map]
      rw [countP_range8_head]
      congr 1
      apply List.countP_congr
      intro k _
      simp only [Function.comp]
      rw [bitIn_cons_add]

/-- Claim C1: in every reachable state, `len()` (the population count over all
storage bytes) equals the number of indices `i < capacity` with
`get i = Some true`. -/
theorem c1_len_counts_set_indices (s : BitSet) (h : Reachable s) :
    s.len = ((List.range s.n).filter (fun i => s.get i == some true)).length := by
  obtain ⟨hl, hb, hp⟩ := reachable_inv h
  have hn8 : s.n ≤ 8 * s.bytes.length := by
    rw [hl]
    omega
  rw [← List.countP_eq_length_filter, BitSet.len, sum_count_ones]
  rw [show 8 * s.bytes.length = s.n + (8 * s.bytes.length - s.n) by omega, List.range_add,
    List.countP_append, List.countP_map]
  have hzero : (List.range (8 * s.bytes.length - s.n)).countP
      ((fun k => bitIn s.bytes k) ∘ fun x => s.n + x) = 0 := by
    rw [List.countP_eq_zero]
    intro a _
    simp [hp (s.n + a) (by omega)]
  rw [hzero, Nat.add_zero]
  apply List.countP_congr
  intro i hi
  have hin : i < s.n := List.mem_range.mp hi
  have hilen : i / 8 < s.bytes.length := by omega
  rw [get_eq_bitIn s hin hilen]
  cases hbit : bitIn s.bytes i <;> simp [hbit]

theorem c1_len_counts_set_indices_witness :
    (((BitSet.new 20).set 3).2.unset 9).2.len =
      ((List.range (((BitSet.new 20).set 3).2.unset 9).2.n).filter
        (fun i => (((BitSet.new 20).set 3).2.unset 9).2.get i == some true)).length :=
  c1_len_counts_set_indices (((BitSet.new 20).set 3).2.unset 9).2
    (Reachable.unset _ 9 (Reachable.set _ 3 (Reachable.base 20)))

theorem leading_zeros_spec (b : Nat) (h0 : 0 < b) (h256 : b < 256) :
    leading_zeros b < 8 ∧ b.testBit (7 - leading_zeros b) = true ∧
      ∀ m < leading_zeros b, b.testBit (7 - m) = false := by
  unfold leading_zeros
  split_ifs with h7 h6 h5 h4 h3 h2 h1 hbit0
  · exact ⟨by norm_num, by simpa using h7, fun m hm => absurd hm (by omega)⟩
  · exact ⟨by norm_num, by simpa using h6, fun m hm => by interval_cases m; simp_all⟩
  · exact ⟨by norm_num, by simpa using h5, fun m hm => by interval_cases m <;> simp_all⟩
  · exact ⟨by norm_num, by simpa using h4, fun m hm => by interval_cases m <;> simp_all⟩
  · exact ⟨by norm_num, by simpa using h3, fun m hm => by interval_cases m <;> simp_all⟩
  · exact ⟨by norm_num, by simpa using h2, fun m hm => by interval_cases m <;> simp_all⟩
  · exact ⟨by norm_num, by simpa using h1, fun m hm => by interval_cases m <;> simp_all⟩
  · exact ⟨by norm_num, by simpa using hbit0, fun m hm => by interval_cases m <;> simp_all⟩
  · exfalso
    have hb' : b = 0 := by
      apply Nat.eq_of_testBit_eq
      intro i
      rw [Nat.zero_testBit]
      by_cases hi : i < 8
      · interval_cases i <;> simp_all
      · have h28 : (256 : Nat) = 2 ^ 8 := by norm_num
        have hle : (2 : Nat) ^ 8 ≤ 2 ^ i := Nat.pow_le_pow_right (by norm_num) (by omega)
        exact Nat.testBit_eq_false_of_lt (lt_of_lt_of_le (h28 ▸ h256) hle)
    omega

theorem minAux_none_iff (L : List Nat) (j : Nat) :
    minAux j L = none ↔ ∀ b ∈ L, b = 0 := by
  induction L generalizing j with
  | nil => simp [minAux]
  | cons b t ih =>
      unfold minAux
      by_cases hb : b > 0
      · rw [if_pos hb]
        constructor
        · intro h
          simp at h
        · intro h
          have := h b (List.mem_cons_self b t)
          omega
      · rw [if_neg hb, ih (j + 1)]
        constructor
        · intro h x hx
          rcases List.mem_cons.mp hx with rfl | hx
          · omega
          · exact h x hx
        · intro h x hx
          exact h x (List.mem_cons_of_mem _ hx)

theorem minAux_some (L : List Nat) (j r : Nat) (h : minAux j L = some r) :
    ∃ i, i < L.length ∧ (∀ i' < i, L.getD i' 0 = 0) ∧ 0 < L.getD i 0 ∧
      r = 8 * (j + i) + leading_zeros (L.getD i 0) := by
  induction L generalizing j with
  | nil => simp [minAux] at h
  | cons b t ih =>
      unfold minAux at h
      by_cases hb : b > 0
      · rw [if_pos hb] at h
        have hr := Option.some.inj h
        refine ⟨0, by simp, fun i' hi' => absurd hi' (by omega), by simpa using hb, ?_⟩
        rw [List.getD_cons_zero, ← hr]
        omega
      · rw [if_neg hb] at h
        obtain ⟨i, hlen, hzero, hpos, hr⟩ := ih (j + 1) h
        refine ⟨i + 1, by simpa using hlen, ?_, by simpa using hpos, ?_⟩
        · intro i' hi'
          cases i' with
          | zero =>
              rw [List.getD_cons_zero]
              omega
          | succ i'' =>
              rw [List.getD_cons_succ]
              exact hzero i'' (by omega)
        · rw [List.getD_cons_succ, hr]
          omega

theorem find_range'_eq_some (p : Nat → Bool) (r : Nat) (hp : p r = true) :
    ∀ m a, a ≤ r → r < a + m → (∀ j, a ≤ j → j < r → p j = false) →
      (List.range' a m).find? p = some r := by
  intro m
  induction m with
  | zero =>
      intro a h1 h2 hmin
      omega
  | succ m ih =>
      intro a h1 h2 hmin
      rw [List.range'_succ]
      by_cases ha : a = r
      · subst ha
        rw [List.find?_cons_of_pos _ hp]
      · have hlt : a < r := by omega
        rw [List.find?_cons_of_neg _ (by simp [hmin a le_rfl hlt])]
        exact ih (a + 1) (by omega) (by omega) fun j hj1 hj2 => hmin j (by omega) hj2

theorem head?_filter_eq (p : Nat → Bool) (l : List Nat) :
    (l.filter p).head? = l.find? p := by
  induction l with
  | nil => rfl
  | cons a t ih =>
      by_cases h : p a = true
      · simp [List.filter_cons, h, List.find?_cons_of_pos _ h]
      · simp [List.filter_cons, h, List.find?_cons_of_neg _ h, ih]

/-- Claim C2: in every reachable state, `min()` returns the smallest index whose
bit reads `Some true` (the head of the increasing list of set indices), or
`None` when no index in `[0, capacity)` is set; the index returned for the
first non-zero byte is `8*byte_idx + leading_zeros(byte)` under the MSB-first
convention. -/
theorem c2_min_is_smallest (s : BitSet) (h : Reachable s) :
    s.min = ((List.range s.n).filter (fun i => s.get i == some true)).head? := by
  obtain ⟨hl, hb, hp⟩ := reachable_inv h
  rw [head?_filter_eq]
  rcases hmin : s.min with _ | r
  · rw [BitSet.min] at hmin
    have hzero := (minAux_none_iff s.bytes 0).mp hmin
    have hgd : ∀ j, s.bytes.getD j 0 = 0 := by
      intro j
      by_cases hj : j < s.bytes.length
      · rw [List.getD_eq_getElem _ _ hj]
        exact hzero _ (List.getElem_mem hj)
      · rw [List.getD_eq_getElem?_getD, List.getElem?_eq_none (by omega)]
        rfl
    symm
    rw [List.find?_eq_none]
    intro i hi
    have hin : i < s.n := List.mem_range.mp hi
    have hilen : i / 8 < s.bytes.length := by omega
    have hbitf : bitIn s.bytes i = false := by
      unfold bitIn
      rw [hgd]
      exact Nat.zero_testBit _
    simp [get_eq_bitIn s hin hilen, hbitf]
  · rw [BitSet.min] at hmin
    obtain ⟨i, hilen, hzero, hpos, hr⟩ := minAux_some s.bytes 0 r hmin
    have hb256 : s.bytes.getD i 0 < 256 := by
      rw [List.getD_eq_getElem _ _ hilen]
      exact hb _ (List.getElem_mem hilen)
    obtain ⟨hlz8, hlzbit, hlzpre⟩ := leading_zeros_spec _ hpos hb256
    have hr' : r = 8 * i + leading_zeros (s.bytes.getD i 0) := by omega
    have hrdiv : r / 8 = i := by omega
    have hrmod : r % 8 = leading_zeros (s.bytes.getD i 0) := by omega
    have hbit : bitIn s.bytes r = true := by
      unfold bitIn
      rw [hrdiv, hrmod]
      exact hlzbit
    have hrn : r < s.n := by
      by_contra hc
      have hfalse := hp r (by omega)
      rw [hfalse] at hbit
      simp at hbit
    have hrlen : r / 8 < s.bytes.length := by
      rw [hrdiv]
      exact hilen
    symm
    rw [List.range_eq_range']
    apply find_range'_eq_some _ r (by simp [get_eq_bitIn s hrn hrlen, hbit]) s.n 0 (by omega)
      (by omega)
    intro j hj0 hjr
    have hjn : j < s.n := by omega
    have hjlen : j / 8 < s.bytes.length := by omega
    have hjbit : bitIn s.bytes j = false := by
      unfold bitIn
      by_cases hji : j / 8 = i
      · have hjm : j % 8 < leading_zeros (s.bytes.getD i 0) := by omega
        rw [hji]
        exact hlzpre _ hjm
      · have hjlt : j / 8 < i := by omega
        rw [hzero _ hjlt]
        exact Nat.zero_testBit _
    simp [get_eq_bitIn s hjn hjlen, hjbit]

theorem c2_min_is_smallest_witness :
    ((BitSet.new 10).set 4).2.min =
      ((List.range ((BitSet.new 10).set 4).2.n).filter
        (fun i => ((BitSet.new 10).set 4).2.get i == some true)).head? :=
  c2_min_is_smallest ((BitSet.new 10).set 4).2 (Reachable.set _ 4 (Reachable.base 10))

theorem byteBits_length (b : Nat) : (byteBits b).length = 8 := by
  simp [byteBits]

theorem render_length (L : List Nat) : ((L.map byteBits).flatten).length = 8 * L.length := by
  induction L with
  | nil => simp
  | cons b t ih =>
      simp only [List.map_cons, List.flatten_cons, List.length_append, byteBits_length, ih,
        List.length_cons]
      ring

theorem byteBits_getD (b : Nat) {k : Nat} (hk : k < 8) :
    (byteBits b).getD k false = b.testBit (7 - k) := by
  rw [byteBits, List.getD_eq_getElem?_getD, List.getElem?_map, List.getElem?_range hk]
  rfl

theorem render_getD (L : List Nat) (k : Nat) :
    ((L.map byteBits).flatten).getD k false =
      if k < 8 * L.length then bitIn L k else false := by
  induction L generalizing k with
  | nil => simp
  | cons b t ih =>
      rw [List.map_cons, List.flatten_cons]
      by_cases hk : k < 8
      · rw [List.getD_append _ _ _ _ (by rw [byteBits_length]; exact hk)]
        rw [byteBits_getD b hk]
        rw [if_pos (by simp only [List.length_cons]; omega)]
        unfold bitIn
        rw [Nat.div_eq_of_lt hk, Nat.mod_eq_of_lt hk, List.getD_cons_zero]
      · obtain ⟨k', rfl⟩ : ∃ k', k = 8 + k' := ⟨k - 8, by omega⟩
        rw [List.getD_append_right _ _ _ _ (by rw [byteBits_length]; omega)]
        rw [byteBits_length, show 8 + k' - 8 = k' by omega, ih k']
        rw [bitIn_cons_add]
        by_cases h2 : k' < 8 * t.length
        · rw [if_pos h2, if_pos (by simp only [List.length_cons]; omega)]
        · rw [if_neg h2, if_neg (by simp only [List.length_cons]; omega)]

/-- Claim C10: in every reachable state the `Display` rendering is safe: the
binary string has exactly `8 * storage.length` characters, the slice bound
`capacity` never exceeds that, and character `k` of the string is `1` exactly
when `get k = Some true`. -/
theorem c10_display_in_bounds (s : BitSet) (h : Reachable s) :
    s.render.length = 8 * s.bytes.length ∧
      s.n ≤ 8 * s.bytes.length ∧
      ∀ k, k < s.n → (s.render.getD k false = true ↔ s.get k = some true) := by
  obtain ⟨hl, hb, hp⟩ := reachable_inv h
  refine ⟨by rw [BitSet.render]; exact render_length s.bytes, by omega, ?_⟩
  intro k hk
  have hklen : k / 8 < s.bytes.length := by omega
  rw [BitSet.render, render_getD, if_pos (by omega)]
  rw [get_eq_bitIn s hk hklen]
  cases hbit : bitIn s.bytes k <;> simp [hbit]

theorem c10_display_in_bounds_witness :
    ((BitSet.new 9).set 8).2.render.length = 8 * ((BitSet.new 9).set 8).2.bytes.length ∧
      ((BitSet.new 9).set 8).2.n ≤ 8 * ((BitSet.new 9).set 8).2.bytes.length ∧
      ∀ k, k < ((BitSet.new 9).set 8).2.n →
        (((BitSet.new 9).set 8).2.render.getD k false = true ↔
          ((BitSet.new 9).set 8).2.get k = some true) :=
  c10_display_in_bounds ((BitSet.new 9).set 8).2 (Reachable.set _ 8 (Reachable.base 9))
